import Mathlib

/-!
Shallow embedding of metrics_101258593.py, a script that parses a
scheduling-simulator execution trace and computes throughput, average
waiting time, average turnaround time and average response time.

Python dictionaries are modelled as insertion-ordered association lists
(`Dict`), which mirrors dict semantics exactly: assignment to an existing
key updates the value in place, assignment to a fresh key appends, and
iteration over keys and values follows insertion order.  Python ints are
`Int`; the float divisions of the final metrics are modelled over `ℚ`.
-/

/-- One parsed transition record: the tuple (time, pid, old, new) built by
parse_execution_file. -/
structure Transition where
  time : Int
  pid : String
  old : String
  new : String
deriving DecidableEq

/-- Insertion-ordered association list standing for a Python dict keyed by
process id with integer values. -/
abbrev Dict := List (String × Int)

/-- Dictionary lookup: d.get(k) / k in d. -/
def dget : Dict → String → Option Int
  | [], _ => none
  | (k, v) :: rest, q => if k = q then some v else dget rest q

/-- Dictionary assignment d[k] = v: update in place if the key is present,
append otherwise (Python dicts keep the original insertion position). -/
def dset : Dict → String → Int → Dict
  | [], q, v => [(q, v)]
  | (k, w) :: rest, q, v => if k = q then (q, v) :: rest else (k, w) :: dset rest q v

/-- Sum of the values of a dict, sum(d.values()). -/
def dsum (m : Dict) : Int := (m.map (fun kv => kv.2)).sum

/-- Maximum of the values of a dict, max(d.values()); only used on nonempty
dicts, the value on the empty dict is arbitrary. -/
def dmax : Dict → Int
  | [] => 0
  | kv :: rest => rest.foldl (fun a b => max a b.2) kv.2

/-- The five accumulation dictionaries of compute_metrics. -/
structure MState where
  arrivals : Dict
  first_run : Dict
  finish_time : Dict
  wait_time : Dict
  last_ready_time : Dict
deriving DecidableEq

/-- All five dictionaries start empty. -/
def initState : MState := ⟨[], [], [], [], []⟩

/-- One iteration of the scanning loop of compute_metrics: the four
independent if-blocks of the Python loop body, applied in source order. -/
def step (s : MState) (t : Transition) : MState :=
  -- NEW -> READY: arrival
  let s1 :=
    if t.new = "READY" ∧ t.old = "NEW" then
      { s with arrivals := dset s.arrivals t.pid t.time,
               last_ready_time := dset s.last_ready_time t.pid t.time }
    else s
  -- * -> RUNNING
  let s2 :=
    if t.new = "RUNNING" then
      let sa :=
        if dget s1.first_run t.pid = none then
          { s1 with first_run := dset s1.first_run t.pid t.time }
        else s1
      match dget sa.last_ready_time t.pid with
      | some r =>
          let w := (dget sa.wait_time t.pid).getD 0 + (t.time - r)
          { sa with wait_time := dset sa.wait_time t.pid w }
      | none => sa
    else s1
  -- * -> TERMINATED
  let s3 :=
    if t.new = "TERMINATED" then
      { s2 with finish_time := dset s2.finish_time t.pid t.time }
    else s2
  -- WAITING -> READY: back into ready queue
  if t.new = "READY" ∧ t.old = "WAITING" then
    { s3 with last_ready_time := dset s3.last_ready_time t.pid t.time }
  else s3

/-- The whole scanning loop of compute_metrics over the transition list. -/
def scanTransitions (ts : List Transition) : MState := ts.foldl step initState

/-- The turnaround dictionary built after the scan: for pid in arrivals, if
pid in finish_time then turnaround[pid] = finish_time[pid] - arrivals[pid]. -/
def turnaroundList (s : MState) : Dict :=
  s.arrivals.filterMap (fun pa => (dget s.finish_time pa.1).map (fun f => (pa.1, f - pa.2)))

/-- The response dictionary built after the scan: for pid in arrivals, if
pid in first_run then response[pid] = first_run[pid] - arrivals[pid]. -/
def responseList (s : MState) : Dict :=
  s.arrivals.filterMap (fun pa => (dget s.first_run pa.1).map (fun r => (pa.1, r - pa.2)))

/-- The averaging denominator: n = len(arrivals) if arrivals else 1. -/
def nProcs (s : MState) : Int := if s.arrivals.isEmpty then 1 else s.arrivals.length

/-- The message of the RuntimeError raised when no process terminated. -/
def noTermMsg : String := "No TERMINATED transitions found - file may be empty or malformed."

/-- The resulting metrics dictionary, with Python float division modelled
over the rationals. -/
structure MetricsRec where
  throughput : ℚ
  avg_wait_time : ℚ
  avg_turnaround : ℚ
  avg_response : ℚ
deriving DecidableEq

/-- compute_metrics: scan the transitions, derive turnaround and response,
raise if no process terminated, otherwise aggregate the four metrics.
The Python code builds turnaround and response before the raise-check; both
computations are pure so the order is immaterial. -/
def compute_metrics (transitions : List Transition) : Except String MetricsRec :=
  let s := scanTransitions transitions
  if s.finish_time = [] then
    Except.error noTermMsg
  else
    Except.ok
      { throughput :=
          if 0 < dmax s.finish_time then
            ((nProcs s : ℚ)) / ((dmax s.finish_time : ℚ))
          else 0
        avg_wait_time :=
          if 0 < nProcs s then ((dsum s.wait_time : ℚ)) / ((nProcs s : ℚ)) else 0
        avg_turnaround :=
          if 0 < nProcs s then ((dsum (turnaroundList s) : ℚ)) / ((nProcs s : ℚ)) else 0
        avg_response :=
          if 0 < nProcs s then ((dsum (responseList s) : ℚ)) / ((nProcs s : ℚ)) else 0 }

/-! ## The trace reader, parse_execution_file

Python string operations are modelled over `List Char` so that every
operation is structurally recursive; input lines are converted on entry. -/

/-- Characters stripped by Python str.strip() on ASCII input. -/
def isPySpace (c : Char) : Bool :=
  c = ' ' || c = '\t' || c = '\n' || c = '\r' || c = '\x0b' || c = '\x0c'

/-- Python str.strip(): remove whitespace from both ends. -/
def stripChars (cs : List Char) : List Char :=
  ((cs.dropWhile isPySpace).reverse.dropWhile isPySpace).reverse

/-- Python line.rstrip with a newline argument: remove trailing newline
characters. -/
def rstripNl (cs : List Char) : List Char :=
  (cs.reverse.dropWhile (fun c => c = '\n')).reverse

/-- Python line.split on the pipe character: split into the (possibly empty)
segments between pipes. -/
def splitPipe : List Char → List (List Char)
  | [] => [[]]
  | c :: rest =>
    if c = '|' then [] :: splitPipe rest
    else
      match splitPipe rest with
      | [] => [[c]]
      | g :: gs => (c :: g) :: gs

/-- Python s.startswith(pat): the first argument is the pattern. -/
def startsWithList : List Char → List Char → Bool
  | [], _ => true
  | _ :: _, [] => false
  | p :: ps, c :: cs => p = c && startsWithList ps cs

/-- Numeric value of a nonempty digit string. -/
def pyDigitsVal (cs : List Char) : Int :=
  cs.foldl (fun a c => 10 * a + (Int.ofNat (c.toNat - 48))) 0

/-- Python int(s) on an already stripped string: an optional single sign
followed by a nonempty run of digits (digit-group underscores are not
modelled; no trace field uses them). Note that a leading minus sign is
accepted, so negative times parse successfully. -/
def pyIntChars (cs : List Char) : Option Int :=
  match cs with
  | [] => none
  | c :: rest =>
    if c = '-' then
      if !rest.isEmpty && rest.all Char.isDigit then some (-(pyDigitsVal rest)) else none
    else if c = '+' then
      if !rest.isEmpty && rest.all Char.isDigit then some (pyDigitsVal rest) else none
    else if (c :: rest).all Char.isDigit then some (pyDigitsVal (c :: rest)) else none

/-- The per-line body of the parsing loop of parse_execution_file:
returns the transition the line contributes, if any. -/
def parseLineChars (raw : List Char) : Option Transition :=
  let line := rstripNl raw
  -- Skip borders like +-----+
  if startsWithList ['+'] (stripChars line) then none
  -- Only parse table rows starting with a pipe
  else if !(startsWithList ['|'] (stripChars line)) then none
  else
    -- Split row into columns
    let cols := (splitPipe line).map stripChars
    if cols.length < 5 then none
    else
      let time_str := cols.getD 1 []
      let pid := cols.getD 2 []
      let old_state := cols.getD 3 []
      let new_state := cols.getD 4 []
      -- Skip header row
      if startsWithList ['T', 'i', 'm', 'e'] time_str then none
      else
        -- Convert time; not numeric -> skip
        match pyIntChars time_str with
        | none => none
        | some time => some ⟨time, String.mk pid, String.mk old_state, String.mk new_state⟩

/-- Per-line parser on a Lean string. -/
def parseLine (raw : String) : Option Transition := parseLineChars raw.toList

/-- parse_execution_file, with the file contents given as its list of
lines: keep exactly the lines that parse as data rows. -/
def parse_execution_file (lines : List String) : List Transition :=
  lines.filterMap parseLine

/-! ## Auxiliary notions used to state and prove properties -/

/-- Membership test on the process id. -/
def pidB (p : String) (t : Transition) : Bool := decide (t.pid = p)

/-- A NEW to READY transition (the arrival rule of the loop). -/
def arrB (t : Transition) : Bool := decide (t.new = "READY" ∧ t.old = "NEW")

/-- A transition into RUNNING. -/
def runB (t : Transition) : Bool := decide (t.new = "RUNNING")

/-- A transition into TERMINATED. -/
def finB (t : Transition) : Bool := decide (t.new = "TERMINATED")

/-- The subsequence of a trace belonging to one process id. -/
def pfilter (ts : List Transition) (p : String) : List Transition :=
  ts.filter (pidB p)

/-- Time of the last transition of the list satisfying P, if any. -/
def lastMatchTime (P : Transition → Bool) : List Transition → Option Int
  | [] => none
  | t :: rest =>
    match lastMatchTime P rest with
    | some v => some v
    | none => if P t then some t.time else none

/-- Time of the first transition of the list satisfying P, if any. -/
def firstMatchTime (P : Transition → Bool) : List Transition → Option Int
  | [] => none
  | t :: rest => if P t then some t.time else firstMatchTime P rest

/-- The keys of a dict are pairwise distinct (true of every dict the scan
builds, since dset never duplicates a key). -/
def keysNodup (m : Dict) : Prop := (m.map (fun kv => kv.1)).Nodup

/-- Timestamps are nondecreasing along the list. -/
def timesMono : List Transition → Bool
  | [] => true
  | [_] => true
  | a :: b :: rest => decide (a.time ≤ b.time) && timesMono (b :: rest)

/-- Well-formed single-process lifecycle, on the subsequence of one process:
it starts with NEW to READY, never re-enters READY, reaches RUNNING, ends
with its only TERMINATED transition, and its timestamps are nondecreasing. -/
def wfp (l : List Transition) : Bool :=
  match l with
  | [] => false
  | h :: rest =>
    arrB h &&
    rest.all (fun t => !decide (t.new = "READY")) &&
    l.any runB &&
    (match l.reverse with
     | [] => false
     | lst :: pre => finB lst && pre.all (fun t => !finB t)) &&
    timesMono l

/-- Every process occurring in the trace has a well-formed lifecycle. -/
def WellFormed (ts : List Transition) : Prop :=
  ∀ p ∈ ts.map (fun t => t.pid), wfp (pfilter ts p) = true

instance instDecidableWellFormed (ts : List Transition) : Decidable (WellFormed ts) := by
  unfold WellFormed
  infer_instance

/-- Agreement of two scan states on everything recorded for one process id. -/
def eqAt (p : String) (s1 s2 : MState) : Prop :=
  dget s1.arrivals p = dget s2.arrivals p ∧
  dget s1.first_run p = dget s2.first_run p ∧
  dget s1.finish_time p = dget s2.finish_time p ∧
  dget s1.wait_time p = dget s2.wait_time p ∧
  dget s1.last_ready_time p = dget s2.last_ready_time p

/-- Modelled from the spec: the completed-process count, the number of
distinct process ids observed reaching TERMINATED ("Throughput:
completed-process count divided by the latest completion time observed").
The source has no such counter; it divides by len(arrivals) instead. -/
def specCompletedCount (ts : List Transition) : Nat :=
  ((ts.filter finB).map (fun t => t.pid)).dedup.length

/-! ## Concrete traces used as witnesses and counterexamples -/

/-- A process whose NEW to READY transition is recorded twice. -/
def exRepeatArr : List Transition :=
  [⟨0, "1", "NEW", "READY"⟩, ⟨5, "1", "NEW", "READY"⟩,
   ⟨6, "1", "READY", "RUNNING"⟩, ⟨10, "1", "RUNNING", "TERMINATED"⟩]

/-- A process dispatched twice with no READY transition in between. -/
def exDoubleRun : List Transition :=
  [⟨0, "1", "NEW", "READY"⟩, ⟨2, "1", "READY", "RUNNING"⟩,
   ⟨4, "1", "RUNNING", "WAITING"⟩, ⟨5, "1", "WAITING", "RUNNING"⟩,
   ⟨8, "1", "RUNNING", "TERMINATED"⟩]

/-- A mid-scan state for process 1: arrived at 0, first dispatched at 2,
waited 2 time units, last became ready at 0. -/
def exMState : MState :=
  ⟨[("1", 0)], [("1", 2)], [], [("1", 2)], [("1", 0)]⟩

/-- A second dispatch of process 1 with no intervening READY transition. -/
def exRunT : Transition := ⟨5, "1", "WAITING", "RUNNING"⟩

/-- One completed process: the simple boundary lifecycle. -/
def exSimple : List Transition :=
  [⟨0, "1", "NEW", "READY"⟩, ⟨0, "1", "READY", "RUNNING"⟩,
   ⟨5, "1", "RUNNING", "TERMINATED"⟩]

/-- One completed process plus one process that only arrived: the completed
count is 1 but len(arrivals) is 2. -/
def exPartial : List Transition :=
  [⟨0, "1", "NEW", "READY"⟩, ⟨2, "1", "READY", "RUNNING"⟩,
   ⟨10, "1", "RUNNING", "TERMINATED"⟩, ⟨1, "2", "NEW", "READY"⟩]

/-- The multi-wait scenario of the spec for process P. -/
def exMultiWait : List Transition :=
  [⟨0, "P", "NEW", "READY"⟩, ⟨2, "P", "READY", "RUNNING"⟩,
   ⟨4, "P", "RUNNING", "WAITING"⟩, ⟨6, "P", "WAITING", "READY"⟩,
   ⟨10, "P", "READY", "RUNNING"⟩, ⟨12, "P", "RUNNING", "TERMINATED"⟩]

/-- A table row whose time field is the negative integer -5. -/
def exNegLine : String := "| -5 | 1 | NEW | READY |"

/-- A well-formed table row with time 0. -/
def exGoodLine : String := "|  0 |  1 |  NEW |  READY |"

/-! ## Dictionary lemmas -/

theorem dget_dset_self (m : Dict) (q : String) (v : Int) : dget (dset m q v) q = some v := by
  induction m with
  | nil => simp [dset, dget]
  | cons kv rest ih =>
    obtain ⟨k, w⟩ := kv
    by_cases h : k = q
    · simp [dset, dget, h]
    · simp [dset, dget, h, ih]

theorem dget_dset_ne (m : Dict) (q : String) (v : Int) (r : String) (h : r ≠ q) :
    dget (dset m q v) r = dget m r := by
  induction m with
  | nil => simp [dset, dget, Ne.symm h]
  | cons kv rest ih =>
    obtain ⟨k, w⟩ := kv
    by_cases hk : k = q
    · subst hk
      simp [dset, dget, Ne.symm h]
    · by_cases hr : k = r
      · subst hr
        simp [dset, dget, hk]
      · simp [dset, dget, hk, hr, ih]

theorem dget_dset (m : Dict) (q : String) (v : Int) (r : String) :
    dget (dset m q v) r = if r = q then some v else dget m r := by
  by_cases h : r = q
  · subst h; simp [dget_dset_self]
  · simp [h, dget_dset_ne m q v r h]

theorem dset_ne_nil (m : Dict) (q : String) (v : Int) : dset m q v ≠ [] := by
  cases m with
  | nil => simp [dset]
  | cons kv rest =>
    obtain ⟨k, w⟩ := kv
    by_cases h : k = q <;> simp [dset, h]

theorem dget_nil (q : String) : dget [] q = none := rfl

/-! ## Per-field behaviour of one loop iteration -/

theorem step_arrivals (s : MState) (t : Transition) :
    (step s t).arrivals =
      if t.new = "READY" ∧ t.old = "NEW" then dset s.arrivals t.pid t.time
      else s.arrivals := by
  simp only [step]
  split_ifs <;> (try split) <;> simp_all

theorem step_finish (s : MState) (t : Transition) :
    (step s t).finish_time =
      if t.new = "TERMINATED" then dset s.finish_time t.pid t.time
      else s.finish_time := by
  simp only [step]
  split_ifs <;> (try split) <;> simp_all

theorem step_first_run (s : MState) (t : Transition) :
    (step s t).first_run =
      if t.new = "RUNNING" ∧ dget s.first_run t.pid = none then
        dset s.first_run t.pid t.time
      else s.first_run := by
  simp only [step]
  split_ifs <;> (try split) <;> simp_all

theorem step_last_ready (s : MState) (t : Transition) :
    (step s t).last_ready_time =
      if t.new = "READY" ∧ (t.old = "NEW" ∨ t.old = "WAITING") then
        dset s.last_ready_time t.pid t.time
      else s.last_ready_time := by
  simp only [step]
  split_ifs <;> (try split) <;> simp_all

theorem step_wait (s : MState) (t : Transition) :
    (step s t).wait_time =
      if t.new = "RUNNING" then
        match dget s.last_ready_time t.pid with
        | some r => dset s.wait_time t.pid ((dget s.wait_time t.pid).getD 0 + (t.time - r))
        | none => s.wait_time
      else s.wait_time := by
  simp only [step]
  split_ifs <;> (try split) <;> simp_all

/-! ## Pointwise effect of one iteration on each dictionary -/

theorem dget_step_arrivals (s : MState) (t : Transition) (p : String) :
    dget (step s t).arrivals p =
      if pidB p t && arrB t then some t.time else dget s.arrivals p := by
  rw [step_arrivals]
  by_cases harr : t.new = "READY" ∧ t.old = "NEW"
  · by_cases hp : p = t.pid
    · subst hp; simp [harr, pidB, arrB, dget_dset_self]
    · simp [harr, pidB, arrB, Ne.symm hp, dget_dset_ne _ _ _ _ hp]
  · simp [harr, arrB]

theorem dget_step_finish (s : MState) (t : Transition) (p : String) :
    dget (step s t).finish_time p =
      if pidB p t && finB t then some t.time else dget s.finish_time p := by
  rw [step_finish]
  by_cases hfin : t.new = "TERMINATED"
  · by_cases hp : p = t.pid
    · subst hp; simp [hfin, pidB, finB, dget_dset_self]
    · simp [hfin, pidB, finB, Ne.symm hp, dget_dset_ne _ _ _ _ hp]
  · simp [hfin, finB]

theorem dget_step_first_run (s : MState) (t : Transition) (p : String) :
    dget (step s t).first_run p =
      if pidB p t && runB t && decide (dget s.first_run p = none) then some t.time
      else dget s.first_run p := by
  rw [step_first_run]
  by_cases hrun : t.new = "RUNNING"
  · by_cases hp : p = t.pid
    · subst hp
      by_cases hd : dget s.first_run t.pid = none
      · simp [hrun, hd, pidB, runB, dget_dset_self]
      · simp [hrun, hd, pidB, runB]
    · by_cases hd : dget s.first_run t.pid = none
      · simp [hrun, hd, pidB, runB, Ne.symm hp, dget_dset_ne _ _ _ _ hp]
      · simp [hrun, hd, pidB, runB, Ne.symm hp]
  · simp [hrun, runB]

theorem dget_step_last_ready (s : MState) (t : Transition) (p : String) :
    dget (step s t).last_ready_time p =
      if pidB p t && decide (t.new = "READY" ∧ (t.old = "NEW" ∨ t.old = "WAITING")) then
        some t.time
      else dget s.last_ready_time p := by
  rw [step_last_ready]
  by_cases hrdy : t.new = "READY" ∧ (t.old = "NEW" ∨ t.old = "WAITING")
  · by_cases hp : p = t.pid
    · subst hp; simp [hrdy, pidB, dget_dset_self]
    · simp [hrdy, pidB, Ne.symm hp, dget_dset_ne _ _ _ _ hp]
  · simp [hrdy]

/-! ## Characterization of the whole scan, per process id -/

theorem dget_foldl_arrivals (ts : List Transition) : ∀ (s : MState) (p : String),
    dget ((ts.foldl step s).arrivals) p =
      match lastMatchTime (fun t => pidB p t && arrB t) ts with
      | some v => some v
      | none => dget s.arrivals p := by
  induction ts with
  | nil => intro s p; simp [lastMatchTime]
  | cons t rest ih =>
    intro s p
    simp only [List.foldl_cons]
    rw [ih, dget_step_arrivals]
    simp only [lastMatchTime]
    rcases Bool.eq_false_or_eq_true (pidB p t && arrB t) with hP | hP <;>
      simp only [hP] <;>
      cases hl : lastMatchTime (fun t => pidB p t && arrB t) rest <;>
      simp [hl]

theorem dget_foldl_finish (ts : List Transition) : ∀ (s : MState) (p : String),
    dget ((ts.foldl step s).finish_time) p =
      match lastMatchTime (fun t => pidB p t && finB t) ts with
      | some v => some v
      | none => dget s.finish_time p := by
  induction ts with
  | nil => intro s p; simp [lastMatchTime]
  | cons t rest ih =>
    intro s p
    simp only [List.foldl_cons]
    rw [ih, dget_step_finish]
    simp only [lastMatchTime]
    rcases Bool.eq_false_or_eq_true (pidB p t && finB t) with hP | hP <;>
      simp only [hP] <;>
      cases hl : lastMatchTime (fun t => pidB p t && finB t) rest <;>
      simp [hl]

theorem dget_foldl_first_run (ts : List Transition) : ∀ (s : MState) (p : String),
    dget ((ts.foldl step s).first_run) p =
      match dget s.first_run p with
      | some v => some v
      | none => firstMatchTime (fun t => pidB p t && runB t) ts := by
  induction ts with
  | nil => intro s p; cases h : dget s.first_run p <;> simp [firstMatchTime, h]
  | cons t rest ih =>
    intro s p
    simp only [List.foldl_cons]
    rw [ih, dget_step_first_run]
    simp only [firstMatchTime]
    cases hd : dget s.first_run p
    · rcases Bool.eq_false_or_eq_true (pidB p t && runB t) with hP | hP <;>
        simp only [hP] <;> simp
    · simp

theorem scan_arrivals_dget (ts : List Transition) (p : String) :
    dget (scanTransitions ts).arrivals p =
      lastMatchTime (fun t => pidB p t && arrB t) ts := by
  rw [scanTransitions, dget_foldl_arrivals]
  cases h : lastMatchTime (fun t => pidB p t && arrB t) ts <;> simp [initState, dget]

theorem scan_finish_dget (ts : List Transition) (p : String) :
    dget (scanTransitions ts).finish_time p =
      lastMatchTime (fun t => pidB p t && finB t) ts := by
  rw [scanTransitions, dget_foldl_finish]
  cases h : lastMatchTime (fun t => pidB p t && finB t) ts <;> simp [initState, dget]

theorem scan_first_run_dget (ts : List Transition) (p : String) :
    dget (scanTransitions ts).first_run p =
      firstMatchTime (fun t => pidB p t && runB t) ts := by
  rw [scanTransitions, dget_foldl_first_run]
  simp [initState, dget]

theorem foldl_finish_nil (ts : List Transition) : ∀ s : MState,
    ((ts.foldl step s).finish_time = [] ↔
      s.finish_time = [] ∧ ∀ t ∈ ts, ¬ t.new = "TERMINATED") := by
  induction ts with
  | nil => intro s; simp
  | cons t rest ih =>
    intro s
    simp only [List.foldl_cons]
    rw [ih, step_finish]
    by_cases h : t.new = "TERMINATED"
    · simp [h, dset_ne_nil]
    · simp only [h, if_false, ite_false, List.forall_mem_cons]
      tauto

theorem scan_finish_nil (ts : List Transition) :
    ((scanTransitions ts).finish_time = [] ↔ ∀ t ∈ ts, ¬ t.new = "TERMINATED") := by
  rw [scanTransitions, foldl_finish_nil]
  simp [initState]

/-! ## Properties of firstMatchTime and lastMatchTime -/

theorem firstMatchTime_append (P : Transition → Bool) (xs ys : List Transition) :
    firstMatchTime P (xs ++ ys) =
      match firstMatchTime P xs with
      | some v => some v
      | none => firstMatchTime P ys := by
  induction xs with
  | nil => simp [firstMatchTime]
  | cons t rest ih =>
    simp only [List.cons_append, firstMatchTime]
    rcases Bool.eq_false_or_eq_true (P t) with hP | hP <;> simp only [hP] <;> simp [ih]

theorem lastMatchTime_reverse (P : Transition → Bool) (l : List Transition) :
    lastMatchTime P l = firstMatchTime P l.reverse := by
  induction l with
  | nil => simp [lastMatchTime, firstMatchTime]
  | cons t rest ih =>
    simp only [lastMatchTime, List.reverse_cons, firstMatchTime_append, ih]
    cases hl : firstMatchTime P rest.reverse <;>
      rcases Bool.eq_false_or_eq_true (P t) with hP | hP <;>
      simp [firstMatchTime, hP]

theorem firstMatchTime_eq_head_filter (P : Transition → Bool) (l : List Transition) :
    firstMatchTime P l = ((l.filter P).head?).map (fun t => t.time) := by
  induction l with
  | nil => simp [firstMatchTime]
  | cons t rest ih =>
    simp only [firstMatchTime, List.filter_cons]
    rcases Bool.eq_false_or_eq_true (P t) with hP | hP <;> simp only [hP] <;> simp [ih]

theorem lastMatchTime_eq_getLast_filter (P : Transition → Bool) (l : List Transition) :
    lastMatchTime P l = ((l.filter P).getLast?).map (fun t => t.time) := by
  rw [lastMatchTime_reverse, firstMatchTime_eq_head_filter, List.filter_reverse,
    List.head?_reverse]

theorem firstMatchTime_some (P : Transition → Bool) (l : List Transition) (v : Int)
    (h : firstMatchTime P l = some v) : ∃ t ∈ l, P t = true ∧ t.time = v := by
  induction l with
  | nil => simp [firstMatchTime] at h
  | cons t rest ih =>
    simp only [firstMatchTime] at h
    rcases Bool.eq_false_or_eq_true (P t) with hP | hP
    · simp only [hP] at h
      simp at h
      exact ⟨t, List.mem_cons_self t rest, hP, h⟩
    · simp only [hP] at h
      simp at h
      obtain ⟨u, hu, hPu, hv⟩ := ih h
      exact ⟨u, List.mem_cons_of_mem t hu, hPu, hv⟩

theorem lastMatchTime_some (P : Transition → Bool) (l : List Transition) (v : Int)
    (h : lastMatchTime P l = some v) : ∃ t ∈ l, P t = true ∧ t.time = v := by
  rw [lastMatchTime_reverse] at h
  obtain ⟨t, ht, hPt, hv⟩ := firstMatchTime_some P l.reverse v h
  exact ⟨t, List.mem_reverse.mp ht, hPt, hv⟩

theorem firstMatchTime_isSome_of_any (P : Transition → Bool) (l : List Transition)
    (h : ∃ t ∈ l, P t = true) : ∃ v, firstMatchTime P l = some v := by
  induction l with
  | nil => simp at h
  | cons t rest ih =>
    simp only [firstMatchTime]
    rcases Bool.eq_false_or_eq_true (P t) with hP | hP
    · exact ⟨t.time, by simp [hP]⟩
    · have hrest : ∃ u ∈ rest, P u = true := by
        simp only [List.mem_cons] at h
        obtain ⟨u, hu, hPu⟩ := h
        rcases hu with rfl | hu
        · rw [hP] at hPu; cases hPu
        · exact ⟨u, hu, hPu⟩
      obtain ⟨v, hv⟩ := ih hrest
      exact ⟨v, by simp [hP, hv]⟩

theorem lastMatchTime_isSome_of_any (P : Transition → Bool) (l : List Transition)
    (h : ∃ t ∈ l, P t = true) : ∃ v, lastMatchTime P l = some v := by
  rw [lastMatchTime_reverse]
  refine firstMatchTime_isSome_of_any P l.reverse ?_
  obtain ⟨t, ht, hPt⟩ := h
  exact ⟨t, List.mem_reverse.mpr ht, hPt⟩

theorem firstMatchTime_split (P Q : Transition → Bool) (l : List Transition) :
    firstMatchTime (fun t => P t && Q t) l = firstMatchTime Q (l.filter P) := by
  induction l with
  | nil => simp [firstMatchTime]
  | cons t rest ih =>
    simp only [List.filter_cons]
    rcases Bool.eq_false_or_eq_true (P t) with hP | hP <;>
      rcases Bool.eq_false_or_eq_true (Q t) with hQ | hQ <;>
      simp only [firstMatchTime, hP, hQ] <;> simp [ih, firstMatchTime, hQ]

theorem lastMatchTime_split (P Q : Transition → Bool) (l : List Transition) :
    lastMatchTime (fun t => P t && Q t) l = lastMatchTime Q (l.filter P) := by
  induction l with
  | nil => simp [lastMatchTime]
  | cons t rest ih =>
    simp only [List.filter_cons]
    rcases Bool.eq_false_or_eq_true (P t) with hP | hP <;>
      rcases Bool.eq_false_or_eq_true (Q t) with hQ | hQ <;>
      simp only [lastMatchTime, hP, hQ] <;>
      cases hl : lastMatchTime Q (rest.filter P) <;>
      simp [ih, lastMatchTime, hQ, hl]

/-! ## Distinctness of dictionary keys -/

theorem keys_dset_subset (m : Dict) (q : String) (v : Int) (x : String) :
    x ∈ (dset m q v).map (fun kv => kv.1) → x = q ∨ x ∈ m.map (fun kv => kv.1) := by
  induction m with
  | nil =>
    intro h
    simp [dset] at h
    exact Or.inl h
  | cons kv rest ih =>
    obtain ⟨k, w⟩ := kv
    intro h
    by_cases hk : k = q
    · simp only [dset, if_pos hk, List.map_cons, List.mem_cons] at h
      simp only [List.map_cons, List.mem_cons]
      tauto
    · simp only [dset, if_neg hk, List.map_cons, List.mem_cons] at h
      simp only [List.map_cons, List.mem_cons]
      rcases h with h | h
      · tauto
      · rcases ih h with h2 | h2 <;> tauto

theorem keysNodup_dset (m : Dict) (q : String) (v : Int) :
    keysNodup m → keysNodup (dset m q v) := by
  induction m with
  | nil => intro _; simp [dset, keysNodup]
  | cons kv rest ih =>
    obtain ⟨k, w⟩ := kv
    intro h
    simp only [keysNodup, List.map_cons, List.nodup_cons] at h
    obtain ⟨hkmem, hrest⟩ := h
    by_cases hk : k = q
    · subst hk
      have hds : dset ((k, w) :: rest) k v = (k, v) :: rest := by simp [dset]
      rw [hds]
      simp only [keysNodup, List.map_cons, List.nodup_cons]
      exact ⟨hkmem, hrest⟩
    · simp only [dset, if_neg hk, keysNodup, List.map_cons, List.nodup_cons]
      refine ⟨?_, ih hrest⟩
      intro hmem
      rcases keys_dset_subset rest q v k hmem with h2 | h2
      · exact hk h2
      · exact hkmem h2

theorem dget_of_mem (m : Dict) (p : String) (a : Int) :
    keysNodup m → (p, a) ∈ m → dget m p = some a := by
  induction m with
  | nil => intro _ h; simp at h
  | cons kv rest ih =>
    obtain ⟨k, w⟩ := kv
    intro hnd h
    simp only [keysNodup, List.map_cons, List.nodup_cons] at hnd
    obtain ⟨hkmem, hrest⟩ := hnd
    rcases List.mem_cons.mp h with h | h
    · have hpk : p = k ∧ a = w := by simpa [Prod.ext_iff] using h
      obtain ⟨rfl, rfl⟩ := hpk
      simp [dget]
    · by_cases hk : k = p
      · subst hk
        exact absurd (List.mem_map_of_mem (fun kv => kv.1) h) hkmem
      · simp [dget, hk, ih hrest h]

theorem mem_of_dget (m : Dict) (p : String) (a : Int) :
    dget m p = some a → (p, a) ∈ m := by
  induction m with
  | nil => intro h; simp [dget] at h
  | cons kv rest ih =>
    intro h
    obtain ⟨k, w⟩ := kv
    by_cases hk : k = p
    · subst hk
      have hd : dget ((k, w) :: rest) k = some w := by simp [dget]
      rw [hd] at h
      injection h with h
      subst h
      exact List.mem_cons_self _ _
    · have hd : dget ((k, w) :: rest) p = dget rest p := by simp [dget, hk]
      rw [hd] at h
      exact List.mem_cons_of_mem _ (ih h)

theorem foldl_arrivals_nodup (ts : List Transition) : ∀ s : MState,
    keysNodup s.arrivals → keysNodup ((ts.foldl step s).arrivals) := by
  induction ts with
  | nil => intro s h; exact h
  | cons t rest ih =>
    intro s h
    simp only [List.foldl_cons]
    refine ih _ ?_
    rw [step_arrivals]
    split_ifs with hc
    · exact keysNodup_dset _ _ _ h
    · exact h

theorem scan_arrivals_nodup (ts : List Transition) :
    keysNodup (scanTransitions ts).arrivals := by
  refine foldl_arrivals_nodup ts initState ?_
  simp [initState, keysNodup]

/-! ## The maximum of the finish times -/

theorem foldl_max_le_init (xs : List (String × Int)) :
    ∀ a : Int, a ≤ xs.foldl (fun acc b => max acc b.2) a := by
  induction xs with
  | nil => intro a; simp
  | cons x rest ih =>
    intro a
    simp only [List.foldl_cons]
    exact le_trans (le_max_left a x.2) (ih (max a x.2))

theorem foldl_max_mem (xs : List (String × Int)) :
    ∀ (a : Int) (kv : String × Int), kv ∈ xs →
      kv.2 ≤ xs.foldl (fun acc b => max acc b.2) a := by
  induction xs with
  | nil => intro a kv h; simp at h
  | cons x rest ih =>
    intro a kv h
    simp only [List.foldl_cons]
    rcases List.mem_cons.mp h with rfl | h
    · exact le_trans (le_max_right a kv.2) (foldl_max_le_init rest (max a kv.2))
    · exact ih (max a x.2) kv h

theorem foldl_max_attained (xs : List (String × Int)) : ∀ a : Int,
    xs.foldl (fun acc b => max acc b.2) a = a ∨
      ∃ kv ∈ xs, xs.foldl (fun acc b => max acc b.2) a = kv.2 := by
  induction xs with
  | nil => intro a; exact Or.inl rfl
  | cons x rest ih =>
    intro a
    simp only [List.foldl_cons]
    rcases ih (max a x.2) with h | ⟨kv, hkv, h⟩
    · rw [h]
      rcases max_choice a x.2 with h2 | h2
      · exact Or.inl h2
      · exact Or.inr ⟨x, List.mem_cons_self x rest, h2⟩
    · exact Or.inr ⟨kv, List.mem_cons_of_mem x hkv, h⟩

theorem dmax_le (m : Dict) (kv : String × Int) (h : kv ∈ m) : kv.2 ≤ dmax m := by
  cases m with
  | nil => simp at h
  | cons x rest =>
    simp only [dmax]
    rcases List.mem_cons.mp h with rfl | h
    · exact foldl_max_le_init rest kv.2
    · exact foldl_max_mem rest x.2 kv h

theorem dmax_attained (m : Dict) (h : m ≠ []) : ∃ kv ∈ m, dmax m = kv.2 := by
  cases m with
  | nil => exact absurd rfl h
  | cons x rest =>
    simp only [dmax]
    rcases foldl_max_attained rest x.2 with h2 | ⟨kv, hkv, h2⟩
    · exact ⟨x, List.mem_cons_self x rest, h2⟩
    · exact ⟨kv, List.mem_cons_of_mem x hkv, h2⟩

/-! ## Pointwise effect of one iteration on the waiting-time dictionary -/

theorem dget_step_wait (s : MState) (t : Transition) (p : String) :
    dget (step s t).wait_time p =
      if pidB p t && runB t then
        match dget s.last_ready_time p with
        | some r => some ((dget s.wait_time p).getD 0 + (t.time - r))
        | none => dget s.wait_time p
      else dget s.wait_time p := by
  rw [step_wait]
  by_cases hrun : t.new = "RUNNING"
  · by_cases hp : p = t.pid
    · subst hp
      cases hl : dget s.last_ready_time t.pid <;>
        simp [hrun, pidB, runB, hl, dget_dset_self]
    · cases hl : dget s.last_ready_time t.pid <;>
        simp [hrun, pidB, runB, hl, Ne.symm hp, dget_dset_ne _ _ _ _ hp]
  · simp [hrun, runB]

/-! ## Per-process independence of the scan -/

theorem eqAt_refl (p : String) (s : MState) : eqAt p s s := ⟨rfl, rfl, rfl, rfl, rfl⟩

theorem eqAt_symm {p : String} {s1 s2 : MState} (h : eqAt p s1 s2) : eqAt p s2 s1 := by
  obtain ⟨h1, h2, h3, h4, h5⟩ := h
  exact ⟨h1.symm, h2.symm, h3.symm, h4.symm, h5.symm⟩

theorem eqAt_trans {p : String} {s1 s2 s3 : MState}
    (g : eqAt p s1 s2) (h : eqAt p s2 s3) : eqAt p s1 s3 := by
  obtain ⟨g1, g2, g3, g4, g5⟩ := g
  obtain ⟨h1, h2, h3, h4, h5⟩ := h
  exact ⟨g1.trans h1, g2.trans h2, g3.trans h3, g4.trans h4, g5.trans h5⟩

theorem step_other (s : MState) (t : Transition) (p : String) (h : t.pid ≠ p) :
    eqAt p (step s t) s := by
  have hP : pidB p t = false := by simp [pidB, h]
  refine ⟨?_, ?_, ?_, ?_, ?_⟩
  · rw [dget_step_arrivals]; simp [hP]
  · rw [dget_step_first_run]; simp [hP]
  · rw [dget_step_finish]; simp [hP]
  · rw [dget_step_wait]; simp [hP]
  · rw [dget_step_last_ready]; simp [hP]

theorem step_eqAt (t : Transition) (p : String) (s1 s2 : MState) (h : eqAt p s1 s2) :
    eqAt p (step s1 t) (step s2 t) := by
  by_cases hp : t.pid = p
  · obtain ⟨h1, h2, h3, h4, h5⟩ := h
    refine ⟨?_, ?_, ?_, ?_, ?_⟩
    · rw [dget_step_arrivals, dget_step_arrivals, h1]
    · rw [dget_step_first_run, dget_step_first_run, h2]
    · rw [dget_step_finish, dget_step_finish, h3]
    · rw [dget_step_wait, dget_step_wait, h4, h5]
    · rw [dget_step_last_ready, dget_step_last_ready, h5]
  · exact eqAt_trans (step_other s1 t p hp)
      (eqAt_trans h (eqAt_symm (step_other s2 t p hp)))

theorem foldl_pfilter_eqAt (ts : List Transition) : ∀ (p : String) (s1 s2 : MState),
    eqAt p s1 s2 → eqAt p (ts.foldl step s1) ((ts.filter (pidB p)).foldl step s2) := by
  induction ts with
  | nil => intro p s1 s2 h; exact h
  | cons t rest ih =>
    intro p s1 s2 h
    simp only [List.foldl_cons, List.filter_cons]
    rcases Bool.eq_false_or_eq_true (pidB p t) with hP | hP
    · rw [if_pos hP]
      simp only [List.foldl_cons]
      exact ih p _ _ (step_eqAt t p s1 s2 h)
    · have hne : t.pid ≠ p := by simpa [pidB] using hP
      rw [if_neg (by simp [hP])]
      exact ih p _ _ (eqAt_trans (step_other s1 t p hne) h)

theorem scan_pfilter_eqAt (ts : List Transition) (p : String) :
    eqAt p (scanTransitions ts) (scanTransitions (pfilter ts p)) :=
  foldl_pfilter_eqAt ts p initState initState (eqAt_refl p initState)

/-! ## Claim C7: the multi-wait scenario -/

/-- C7: on the multi-wait trace of process P (NEW to READY at 0, dispatched
at 2, blocked at 4, ready again at 6, re-dispatched at 10, terminated at 12)
compute_metrics derives accumulated wait 6, turnaround 12 and response 2
for P. -/
theorem multiWaitScenario :
    dget (scanTransitions exMultiWait).wait_time "P" = some 6 ∧
    dget (turnaroundList (scanTransitions exMultiWait)) "P" = some 12 ∧
    dget (responseList (scanTransitions exMultiWait)) "P" = some 2 :=
  ⟨by decide, by decide, by decide⟩

/-! ## Claim C1: repeated NEW to READY transitions -/

/-- C1 counterexample: in exRepeatArr process 1 records NEW to READY at time
0 (its first such transition) and again at time 5; the scan of
compute_metrics leaves arrival_time 5, the time of the LAST transition, so
the first occurrence does not win. -/
theorem arrivalOverwrittenCex :
    firstMatchTime (fun t => pidB "1" t && arrB t) exRepeatArr = some 0 ∧
    dget (scanTransitions exRepeatArr).arrivals "1" = some 5 ∧
    some (5 : Int) ≠ some (0 : Int) :=
  ⟨by decide, by decide, by decide⟩

/-- C1 amended: for every trace and process id, the arrival_time recorded by
compute_metrics is the time of the last NEW to READY transition of that
process: each repetition overwrites the earlier value. -/
theorem arrivalTimeIsLastNewReady (ts : List Transition) (p : String) :
    dget (scanTransitions ts).arrivals p =
      ((ts.filter (fun t => pidB p t && arrB t)).getLast?).map (fun t => t.time) := by
  rw [scan_arrivals_dget, lastMatchTime_eq_getLast_filter]

/-! ## Claim C2: the waiting interval is not consumed -/

/-- C2 counterexample: in exDoubleRun process 1 waits 2 units before its
dispatch at time 2, then re-enters RUNNING at time 5 directly from WAITING
with no intervening READY transition; compute_metrics still adds 5 - 0 = 5
from the stale marker, accumulating 7 rather than leaving the 2 recorded at
the first dispatch. -/
theorem waitNotConsumedCex :
    dget (scanTransitions exDoubleRun).wait_time "1" = some 7 ∧
    some (7 : Int) ≠ some (2 : Int) :=
  ⟨by decide, by decide⟩

/-- C2 amended: a transition of p into RUNNING while last_ready_time[p] = r
adds (time - r) to p's accumulated wait but does NOT consume the interval:
last_ready_time[p] is left equal to r, so a subsequent RUNNING transition
adds a further interval measured from the same marker even when p never
returned to READY in between; only a new READY transition re-arms the
marker. -/
theorem runningAddsWaitKeepsMarker (s : MState) (t : Transition) (r : Int)
    (hr : t.new = "RUNNING") (hl : dget s.last_ready_time t.pid = some r) :
    dget (step s t).wait_time t.pid =
      some ((dget s.wait_time t.pid).getD 0 + (t.time - r)) ∧
    dget (step s t).last_ready_time t.pid = some r := by
  constructor
  · rw [dget_step_wait]
    simp [pidB, runB, hr, hl]
  · rw [dget_step_last_ready]
    simp [pidB, hr, hl]

/-- C2 witness: the amended rule evaluated on a concrete mid-scan state in
which process 1 became ready at 0 and is dispatched again at time 5. -/
theorem runningAddsWaitKeepsMarkerWitness :
    dget (step exMState exRunT).wait_time exRunT.pid =
      some ((dget exMState.wait_time exRunT.pid).getD 0 + (exRunT.time - 0)) ∧
    dget (step exMState exRunT).last_ready_time exRunT.pid = some 0 :=
  runningAddsWaitKeepsMarker exMState exRunT 0 (by decide) (by decide)

/-! ## Claim C3: the failure condition -/

/-- C3: compute_metrics fails with the no-terminated error exactly when the
trace contains no transition into TERMINATED, and returns a metrics record
(raising nothing) whenever at least one is present. -/
theorem errorIffNoTerminated (ts : List Transition) :
    (compute_metrics ts = Except.error noTermMsg ↔
      ¬ ∃ t ∈ ts, t.new = "TERMINATED") ∧
    ((∃ t ∈ ts, t.new = "TERMINATED") → ∃ m, compute_metrics ts = Except.ok m) := by
  by_cases h : (scanTransitions ts).finish_time = []
  · have hno : ∀ t ∈ ts, ¬ t.new = "TERMINATED" := (scan_finish_nil ts).mp h
    constructor
    · constructor
      · intro _ he
        obtain ⟨t, ht, hterm⟩ := he
        exact hno t ht hterm
      · intro _
        simp [compute_metrics, h]
    · intro he
      obtain ⟨t, ht, hterm⟩ := he
      exact absurd hterm (hno t ht)
  · have hok : ∃ m, compute_metrics ts = Except.ok m := by
      simp only [compute_metrics, if_neg h]
      exact ⟨_, rfl⟩
    constructor
    · constructor
      · intro he
        obtain ⟨m, hm⟩ := hok
        rw [hm] at he
        exact Except.noConfusion he
      · intro hne
        exfalso
        apply h
        apply (scan_finish_nil ts).mpr
        intro t ht hterm
        exact hne ⟨t, ht, hterm⟩
    · intro _
      exact hok

/-- C3 witness: on the simple completed trace, which contains a TERMINATED
transition, a metrics record is returned. -/
theorem errorIffNoTerminatedWitness :
    ∃ m, compute_metrics exSimple = Except.ok m :=
  (errorIffNoTerminated exSimple).2 ⟨⟨5, "1", "RUNNING", "TERMINATED"⟩, by decide, rfl⟩

/-! ## Claim C4: what the reader keeps and discards -/

/-- C4 counterexample: the data row whose time field is -5 is NOT discarded:
parse_execution_file returns it carrying the negative time -5, so the times
of returned records are not guaranteed non-negative. -/
theorem negativeTimeKeptCex :
    parse_execution_file [exNegLine] = [⟨-5, "1", "NEW", "READY"⟩] ∧
    ((-5 : Int) < 0) :=
  ⟨by decide, by decide⟩

/-- C4 amended: every line that parse_execution_file keeps splits into at
least 5 pipe-separated segments, is not the header row (first textual column
beginning with Time), and has a time field that parses as an integer with an
optional sign, the parsed value becoming the record's time; rows failing any
of these are discarded, but a negative integer time is accepted. -/
theorem parseKeepsIntegerRows (raw : String) (t : Transition)
    (h : parseLine raw = some t) :
    5 ≤ ((splitPipe (rstripNl raw.toList)).map stripChars).length ∧
    startsWithList ['T', 'i', 'm', 'e']
      (((splitPipe (rstripNl raw.toList)).map stripChars).getD 1 []) = false ∧
    pyIntChars (((splitPipe (rstripNl raw.toList)).map stripChars).getD 1 [])
      = some t.time := by
  simp only [parseLine, parseLineChars] at h
  split_ifs at h with h1 h2 h3 h4
  refine ⟨by omega, by simpa using h4, ?_⟩
  cases hp : pyIntChars (((splitPipe (rstripNl raw.toList)).map stripChars).getD 1 []) with
  | none => rw [hp] at h; exact Option.noConfusion h
  | some v =>
    rw [hp] at h
    simp only [Option.some.injEq] at h
    rw [← h]

/-- C4 witness: the amended statement instantiated on a well-formed data row
with time field 0. -/
theorem parseKeepsIntegerRowsWitness :
    5 ≤ ((splitPipe (rstripNl exGoodLine.toList)).map stripChars).length ∧
    startsWithList ['T', 'i', 'm', 'e']
      (((splitPipe (rstripNl exGoodLine.toList)).map stripChars).getD 1 []) = false ∧
    pyIntChars (((splitPipe (rstripNl exGoodLine.toList)).map stripChars).getD 1 [])
      = some ((⟨0, "1", "NEW", "READY"⟩ : Transition)).time :=
  parseKeepsIntegerRows exGoodLine ⟨0, "1", "NEW", "READY"⟩ (by decide)

/-! ## Shared facts about the aggregation stage -/

theorem compute_metrics_ok (ts : List Transition)
    (h : ¬ (scanTransitions ts).finish_time = []) :
    compute_metrics ts = Except.ok
      { throughput :=
          if 0 < dmax (scanTransitions ts).finish_time then
            ((nProcs (scanTransitions ts) : ℚ)) /
              ((dmax (scanTransitions ts).finish_time : ℚ))
          else 0
        avg_wait_time :=
          if 0 < nProcs (scanTransitions ts) then
            ((dsum (scanTransitions ts).wait_time : ℚ)) /
              ((nProcs (scanTransitions ts) : ℚ))
          else 0
        avg_turnaround :=
          if 0 < nProcs (scanTransitions ts) then
            ((dsum (turnaroundList (scanTransitions ts)) : ℚ)) /
              ((nProcs (scanTransitions ts) : ℚ))
          else 0
        avg_response :=
          if 0 < nProcs (scanTransitions ts) then
            ((dsum (responseList (scanTransitions ts)) : ℚ)) /
              ((nProcs (scanTransitions ts) : ℚ))
          else 0 } := by
  simp only [compute_metrics, if_neg h]

theorem scan_finish_ne_nil (ts : List Transition)
    (h : ∃ t ∈ ts, t.new = "TERMINATED") :
    ¬ (scanTransitions ts).finish_time = [] := by
  intro hnil
  obtain ⟨t, ht, hterm⟩ := h
  exact (scan_finish_nil ts).mp hnil t ht hterm

theorem one_le_nProcs (s : MState) : 1 ≤ nProcs s := by
  unfold nProcs
  split_ifs with h
  · exact le_refl 1
  · have hne : s.arrivals ≠ [] := by simpa [List.isEmpty_iff] using h
    have hlen : 0 < s.arrivals.length := List.length_pos.mpr hne
    omega

/-! ## Claim C6: the exact throughput formula -/

/-- C6: whenever some process terminated, compute_metrics returns a record
whose throughput equals exactly n / total_finish_time if total_finish_time
is positive and 0 otherwise, where n is the size of the arrivals dictionary
floored to 1 (its keys are pairwise distinct, so the size counts processes
with a recorded arrival) and total_finish_time is the maximum recorded
finish time (an upper bound of all recorded finish times, attained by one
of them). -/
theorem throughputFormulaExact (ts : List Transition)
    (h : ∃ t ∈ ts, t.new = "TERMINATED") :
    ∃ m, compute_metrics ts = Except.ok m ∧
      m.throughput =
        (if 0 < dmax (scanTransitions ts).finish_time then
          ((nProcs (scanTransitions ts) : ℚ)) /
            ((dmax (scanTransitions ts).finish_time : ℚ))
        else 0) ∧
      nProcs (scanTransitions ts) =
        (if (scanTransitions ts).arrivals.isEmpty then 1
         else ((scanTransitions ts).arrivals.length : Int)) ∧
      keysNodup (scanTransitions ts).arrivals ∧
      (∀ kv ∈ (scanTransitions ts).finish_time,
        kv.2 ≤ dmax (scanTransitions ts).finish_time) ∧
      (∃ kv ∈ (scanTransitions ts).finish_time,
        dmax (scanTransitions ts).finish_time = kv.2) := by
  have hne := scan_finish_ne_nil ts h
  exact ⟨_, compute_metrics_ok ts hne, rfl, rfl, scan_arrivals_nodup ts,
    fun kv hkv => dmax_le _ kv hkv, dmax_attained _ hne⟩

/-- C6 witness: on the simple completed trace the formula gives 1/5. -/
theorem throughputFormulaExactWitness :
    ∃ m, compute_metrics exSimple = Except.ok m ∧ m.throughput = 1 / 5 := by
  obtain ⟨m, hm, ht, _⟩ :=
    throughputFormulaExact exSimple ⟨⟨5, "1", "RUNNING", "TERMINATED"⟩, by decide, rfl⟩
  refine ⟨m, hm, ?_⟩
  rw [ht]
  have h5 : dmax (scanTransitions exSimple).finish_time = 5 := by decide
  have h6 : nProcs (scanTransitions exSimple) = 1 := by decide
  rw [h5, h6]
  norm_num

/-! ## Claim C5: throughput does not use the completed-process count -/

/-- C5 counterexample: in exPartial exactly one process terminates
(completed-process count 1, latest completion time 10) while a second
process only arrives; compute_metrics divides len(arrivals) = 2 by 10 and
returns throughput 1/5, not the 1/10 the claim demands. -/
theorem throughputNotCompletedCountCex :
    specCompletedCount exPartial = 1 ∧
    dmax (scanTransitions exPartial).finish_time = 10 ∧
    compute_metrics exPartial = Except.ok ⟨1 / 5, 1, 5, 1⟩ ∧
    ((1 / 5 : ℚ) ≠ (1 : ℚ) / 10) := by
  refine ⟨by decide, by decide, ?_, by norm_num⟩
  have h2 : dsum (turnaroundList (scanTransitions exPartial)) = 10 := by decide
  have h3 : dsum (responseList (scanTransitions exPartial)) = 2 := by decide
  have h4 : dsum (scanTransitions exPartial).wait_time = 2 := by decide
  have h5 : dmax (scanTransitions exPartial).finish_time = 10 := by decide
  have h6 : nProcs (scanTransitions exPartial) = 2 := by decide
  have h8 : ¬((scanTransitions exPartial).finish_time = []) := by decide
  simp only [compute_metrics, h2, h3, h4, h5, h6, if_neg h8]
  norm_num

/-- C5 amended: for a trace with a termination and positive latest
completion time, the throughput returned equals the number of processes
with a recorded arrival_time (floored to 1) divided by the latest completion
time; the completed-process count plays no role beyond fixing that time. -/
theorem throughputUsesArrivalCount (ts : List Transition)
    (h : ∃ t ∈ ts, t.new = "TERMINATED")
    (hpos : 0 < dmax (scanTransitions ts).finish_time) :
    ∃ m, compute_metrics ts = Except.ok m ∧
      m.throughput = ((nProcs (scanTransitions ts) : ℚ)) /
        ((dmax (scanTransitions ts).finish_time : ℚ)) := by
  have hne := scan_finish_ne_nil ts h
  refine ⟨_, compute_metrics_ok ts hne, ?_⟩
  simp [hpos]

/-- C5 witness: the amended statement holds on the partial-completion
trace. -/
theorem throughputUsesArrivalCountWitness :
    ∃ m, compute_metrics exPartial = Except.ok m ∧
      m.throughput = ((nProcs (scanTransitions exPartial) : ℚ)) /
        ((dmax (scanTransitions exPartial).finish_time : ℚ)) :=
  throughputUsesArrivalCount exPartial
    ⟨⟨10, "1", "RUNNING", "TERMINATED"⟩, by decide, rfl⟩ (by decide)

/-! ## Claim C10: totality and guarded divisions -/

/-- C10: whenever at least one TERMINATED transition is present,
compute_metrics returns a record; the averaging denominator n is at least 1
(hence nonzero as a rational), the three averages are genuine divisions by
n, and the throughput division is performed only under the guard
0 < total_finish_time (otherwise throughput is 0). -/
theorem computeTotalNoDivByZero (ts : List Transition)
    (h : ∃ t ∈ ts, t.new = "TERMINATED") :
    ∃ m, compute_metrics ts = Except.ok m ∧
      1 ≤ nProcs (scanTransitions ts) ∧
      ((nProcs (scanTransitions ts) : ℚ)) ≠ 0 ∧
      m.avg_wait_time = ((dsum (scanTransitions ts).wait_time : ℚ)) /
        ((nProcs (scanTransitions ts) : ℚ)) ∧
      m.avg_turnaround = ((dsum (turnaroundList (scanTransitions ts)) : ℚ)) /
        ((nProcs (scanTransitions ts) : ℚ)) ∧
      m.avg_response = ((dsum (responseList (scanTransitions ts)) : ℚ)) /
        ((nProcs (scanTransitions ts) : ℚ)) ∧
      (0 < dmax (scanTransitions ts).finish_time ∨ m.throughput = 0) := by
  have hne := scan_finish_ne_nil ts h
  have h1 : 1 ≤ nProcs (scanTransitions ts) := one_le_nProcs _
  have hpos : 0 < nProcs (scanTransitions ts) := by omega
  have hq : ((nProcs (scanTransitions ts) : ℚ)) ≠ 0 :=
    Int.cast_ne_zero.mpr (by omega)
  refine ⟨_, compute_metrics_ok ts hne, h1, hq, ?_, ?_, ?_, ?_⟩
  · simp [hpos]
  · simp [hpos]
  · simp [hpos]
  · by_cases hT : 0 < dmax (scanTransitions ts).finish_time
    · exact Or.inl hT
    · right
      simp [hT]

/-- C10 witness: on the simple completed trace a record is returned and the
denominator is at least 1. -/
theorem computeTotalNoDivByZeroWitness :
    ∃ m, compute_metrics exSimple = Except.ok m ∧
      1 ≤ nProcs (scanTransitions exSimple) := by
  obtain ⟨m, hm, h1, _⟩ :=
    computeTotalNoDivByZero exSimple ⟨⟨5, "1", "RUNNING", "TERMINATED"⟩, by decide, rfl⟩
  exact ⟨m, hm, h1⟩

/-! ## Claim C9: per-process independence -/

/-- C9: for every trace and process id p, the arrival time, first-run time,
finish time, accumulated wait and last-ready marker the scan derives for p
equal the values derived by scanning only the subsequence of transitions
whose process id is p; transitions of other process ids never affect p's
entries. -/
theorem perProcessIndependence (ts : List Transition) (p : String) :
    dget (scanTransitions ts).arrivals p =
      dget (scanTransitions (pfilter ts p)).arrivals p ∧
    dget (scanTransitions ts).first_run p =
      dget (scanTransitions (pfilter ts p)).first_run p ∧
    dget (scanTransitions ts).finish_time p =
      dget (scanTransitions (pfilter ts p)).finish_time p ∧
    dget (scanTransitions ts).wait_time p =
      dget (scanTransitions (pfilter ts p)).wait_time p ∧
    dget (scanTransitions ts).last_ready_time p =
      dget (scanTransitions (pfilter ts p)).last_ready_time p :=
  scan_pfilter_eqAt ts p

/-! ## Toward claim C8: well-formed lifecycles -/

theorem wfp_parts (l : List Transition) (h : wfp l = true) :
    (∃ h0 rest, l = h0 :: rest ∧ arrB h0 = true ∧ ∀ t ∈ rest, ¬ t.new = "READY") ∧
    (∃ t ∈ l, runB t = true) ∧
    (∃ lst pre, l.reverse = lst :: pre ∧ finB lst = true ∧ ∀ t ∈ pre, finB t = false) ∧
    timesMono l = true := by
  cases l with
  | nil => simp [wfp] at h
  | cons h0 rest =>
    cases hrev : (h0 :: rest).reverse with
    | nil => exact absurd hrev (by simp)
    | cons lst pre =>
      rw [wfp, hrev] at h
      simp only [Bool.and_eq_true, List.all_eq_true, List.any_eq_true,
        Bool.not_eq_true', decide_eq_false_iff_not] at h
      obtain ⟨⟨⟨⟨h1, h2⟩, h3⟩, h4⟩, h5⟩ := h
      exact ⟨⟨h0, rest, rfl, h1, h2⟩, h3, ⟨lst, pre, rfl, h4.1, h4.2⟩, h5⟩

theorem timesMono_le_last (l : List Transition) :
    timesMono l = true → ∀ t ∈ l, ∀ lst, l.getLast? = some lst →
      t.time ≤ lst.time := by
  induction l with
  | nil => intro _ t ht; simp at ht
  | cons a rest ih =>
    intro hm t ht lst hlast
    cases rest with
    | nil =>
      simp only [List.mem_singleton] at ht
      simp only [List.getLast?_singleton, Option.some.injEq] at hlast
      subst ht
      subst hlast
      exact le_refl _
    | cons b rest2 =>
      simp only [timesMono, Bool.and_eq_true, decide_eq_true_eq] at hm
      obtain ⟨hab, hm2⟩ := hm
      rw [List.getLast?_cons_cons] at hlast
      have hm2b : timesMono (b :: rest2) = true := hm2
      rcases List.mem_cons.mp ht with rfl | ht2
      · have hb := ih hm2b b (List.mem_cons_self b rest2) lst hlast
        exact le_trans hab hb
      · exact ih hm2b t ht2 lst hlast

theorem dsum_filterMap_le (ar : Dict) (F R : String → Option Int)
    (h : ∀ pa ∈ ar, ∃ fr fi, R pa.1 = some fr ∧ F pa.1 = some fi ∧ fr ≤ fi) :
    dsum (ar.filterMap (fun pa => (R pa.1).map (fun r => (pa.1, r - pa.2)))) ≤
      dsum (ar.filterMap (fun pa => (F pa.1).map (fun f => (pa.1, f - pa.2)))) := by
  induction ar with
  | nil => simp [dsum]
  | cons pa rest ih =>
    obtain ⟨fr, fi, hR, hF, hle⟩ := h pa (List.mem_cons_self pa rest)
    have ihrest := ih (fun q hq => h q (List.mem_cons_of_mem pa hq))
    simp only [List.filterMap_cons, hR, hF, Option.map_some, dsum, List.map_cons,
      List.sum_cons]
    exact add_le_add (sub_le_sub_right hle pa.2) ihrest

theorem wf_arrivals_bounds (ts : List Transition) (hwf : WellFormed ts) :
    ∀ pa ∈ (scanTransitions ts).arrivals,
      ∃ fr fi, dget (scanTransitions ts).first_run pa.1 = some fr ∧
        dget (scanTransitions ts).finish_time pa.1 = some fi ∧ fr ≤ fi := by
  intro pa hmem
  obtain ⟨p, a⟩ := pa
  have hda : dget (scanTransitions ts).arrivals p = some a :=
    dget_of_mem _ p a (scan_arrivals_nodup ts) hmem
  rw [scan_arrivals_dget] at hda
  obtain ⟨t0, ht0, hPt0, _⟩ := lastMatchTime_some _ ts a hda
  have hpid : t0.pid = p := by
    have h1 := ((Bool.and_eq_true _ _).mp hPt0).1
    simpa [pidB] using h1
  have hpmem : p ∈ ts.map (fun t => t.pid) := by
    rw [← hpid]
    exact List.mem_map_of_mem (fun t => t.pid) ht0
  have hw : wfp (pfilter ts p) = true := hwf p hpmem
  obtain ⟨⟨h0, rest, hl, hhd, hnoready⟩, ⟨trun, htrun, hruntrue⟩,
    ⟨lst, pre, hrev, hfinlst, hprefin⟩, hmono⟩ := wfp_parts _ hw
  have hlast : (pfilter ts p).getLast? = some lst := by
    rw [← List.head?_reverse, hrev]
    rfl
  have hfin : dget (scanTransitions ts).finish_time p = some lst.time := by
    rw [scan_finish_dget, lastMatchTime_split (pidB p) finB ts, lastMatchTime_reverse]
    show firstMatchTime finB (pfilter ts p).reverse = some lst.time
    rw [hrev]
    simp [firstMatchTime, hfinlst]
  obtain ⟨v, hv⟩ := firstMatchTime_isSome_of_any runB (pfilter ts p) ⟨trun, htrun, hruntrue⟩
  obtain ⟨t1, ht1, _, ht1v⟩ := firstMatchTime_some runB (pfilter ts p) v hv
  have hfr : dget (scanTransitions ts).first_run p = some v := by
    rw [scan_first_run_dget, firstMatchTime_split (pidB p) runB ts]
    show firstMatchTime runB (pfilter ts p) = some v
    exact hv
  have hvle : v ≤ lst.time := by
    rw [← ht1v]
    exact timesMono_le_last _ hmono t1 ht1 lst hlast
  exact ⟨v, lst.time, hfr, hfin, hvle⟩

theorem wf_finish_ne_nil (ts : List Transition) (hwf : WellFormed ts) (hne : ts ≠ []) :
    ¬ (scanTransitions ts).finish_time = [] := by
  cases ts with
  | nil => exact absurd rfl hne
  | cons t0 rest =>
    have hpmem : t0.pid ∈ (t0 :: rest).map (fun t => t.pid) :=
      List.mem_map_of_mem _ (List.mem_cons_self t0 rest)
    have hw := hwf t0.pid hpmem
    obtain ⟨_, _, ⟨lst, pre, hrev, hfinlst, _⟩, _⟩ := wfp_parts _ hw
    have hlstmem : lst ∈ pfilter (t0 :: rest) t0.pid := by
      have hrevmem : lst ∈ (pfilter (t0 :: rest) t0.pid).reverse := by
        rw [hrev]
        exact List.mem_cons_self _ _
      exact List.mem_reverse.mp hrevmem
    have hlst_ts : lst ∈ (t0 :: rest) := List.mem_of_mem_filter hlstmem
    apply scan_finish_ne_nil
    refine ⟨lst, hlst_ts, ?_⟩
    simpa [finB] using hfinlst

/-! ## Claim C8: average response at most average turnaround -/

/-- C8: on every nonempty trace in which each occurring process has a
well-formed lifecycle (it starts NEW to READY, never re-enters READY,
reaches RUNNING, ends with its only TERMINATED transition, and its
timestamps are nondecreasing), compute_metrics returns a record with
avg_response at most avg_turnaround. -/
theorem avgResponseLeAvgTurnaround (ts : List Transition)
    (hwf : WellFormed ts) (hne : ts ≠ []) :
    ∃ m, compute_metrics ts = Except.ok m ∧ m.avg_response ≤ m.avg_turnaround := by
  have hfinne := wf_finish_ne_nil ts hwf hne
  have hpos : 0 < nProcs (scanTransitions ts) := by
    have := one_le_nProcs (scanTransitions ts)
    omega
  refine ⟨_, compute_metrics_ok ts hfinne, ?_⟩
  have hsum : dsum (responseList (scanTransitions ts)) ≤
      dsum (turnaroundList (scanTransitions ts)) := by
    unfold responseList turnaroundList
    exact dsum_filterMap_le (scanTransitions ts).arrivals
      (dget (scanTransitions ts).finish_time)
      (dget (scanTransitions ts).first_run)
      (wf_arrivals_bounds ts hwf)
  dsimp only
  simp only [if_pos hpos]
  have hnq : (0 : ℚ) < ((nProcs (scanTransitions ts) : ℚ)) := by exact_mod_cast hpos
  have hq : ((dsum (responseList (scanTransitions ts)) : ℚ)) ≤
      ((dsum (turnaroundList (scanTransitions ts)) : ℚ)) := by exact_mod_cast hsum
  exact (div_le_div_iff_of_pos_right hnq).mpr hq

/-- C8 witness: the inequality holds on the simple completed trace, which is
well formed. -/
theorem avgResponseLeAvgTurnaroundWitness :
    ∃ m, compute_metrics exSimple = Except.ok m ∧
      m.avg_response ≤ m.avg_turnaround :=
  avgResponseLeAvgTurnaround exSimple (by decide) (by decide)
